import Mathlib

/-!
Verification of the OFDM receiver front-end of the DAB-Radio repository
(`src/ofdm/ofdm_demodulator.cpp`).

The C++ code is shallowly embedded: `float` values are modelled as exact
rationals (`ℚ`), `std::complex<float>` as pairs of rationals, machine
integers as `ℤ`/`ℕ` (the quantities involved are far below any overflow
boundary), and the data-dependent outcomes of comparisons on sampled
signal data are abstracted by boolean/natural oracles where the claims
under study do not depend on the sampled values themselves.

The file is organised as: all definitions (the embedding) first, then
all theorems.
-/

namespace DABOFDM

/-! ## Definitions -/

/-! ### Elementary numeric model: C casts and `fmod` -/

/-- Truncation of a rational toward zero, the semantics of a C
float-to-integer cast (`Int.tdiv` is T-division, i.e. C `/`). -/
def ratTrunc (q : ℚ) : ℤ := q.num.tdiv q.den

/-- Model of C `fmod(x, y)`: `x - trunc(x/y)*y`, exact on rationals. -/
def ratFmod (x y : ℚ) : ℚ := x - (ratTrunc (x / y) : ℚ) * y

/-- Complex value with exact rational components
(model of `std::complex<float>`). -/
structure Cplx where
  re : ℚ
  im : ℚ
deriving DecidableEq, Repr

/-- Complex multiplication, as performed by `std::complex` `operator*`. -/
def Cplx.mul (a b : Cplx) : Cplx :=
  ⟨a.re * b.re - a.im * b.im, a.re * b.im + a.im * b.re⟩

/-- Complex conjugation, `std::conj`. -/
def Cplx.conj (a : Cplx) : Cplx := ⟨a.re, -a.im⟩

/-! ### Fine frequency offset (`OFDM_Demod::UpdateFineFrequencyOffset`,
lines 810-821, and `OFDM_Demod::Reset`, lines 279-291) -/

/-- Wrap bound of `UpdateFineFrequencyOffset`:
`0.5f * fft_bin_spacing * fft_bin_margin` with `fft_bin_spacing = 1/nb_fft`
and `fft_bin_margin = 1.01f`. -/
def wrapLimit (nfft : ℚ) : ℚ := (1/2) * (1/nfft) * (101/100)

/-- Body of `OFDM_Demod::UpdateFineFrequencyOffset`:
`freq_fine_offset += delta; freq_fine_offset = fmod(freq_fine_offset, fft_bin_wrap)`. -/
def updateFineFrequencyOffset (nfft ffo delta : ℚ) : ℚ :=
  ratFmod (ffo + delta) (wrapLimit nfft)

/-- One mutation of `freq_fine_offset`: either a call to
`UpdateFineFrequencyOffset` (from the ingest coarse counter-adjustment or
the coordinator fine update, both of which go through that one function)
or a `Reset` (which assigns `freq_fine_offset = 0`). -/
inductive FineFreqOp where
  | update (delta : ℚ)
  | reset
deriving Repr

/-- Value of `freq_fine_offset` after a sequence of mutations, starting
from the constructor's `freq_fine_offset = 0`. -/
def ffoRun (nfft : ℚ) (ops : List FineFreqOp) : ℚ :=
  ops.foldl
    (fun ffo op =>
      match op with
      | FineFreqOp.update delta => updateFineFrequencyOffset nfft ffo delta
      | FineFreqOp.reset => 0)
    0

/-! ### Soft-decision bit conversion (`convert_to_viterbi_bit`, lines 51-66) -/

/-- Modelled from the spec: `SOFT_DECISION_VITERBI_HIGH` and
`viterbi_bit_t` come from a header that is not part of the sources at
hand; per the spec a soft/Viterbi bit is "a signed integer in `[−A, +A]`"
produced for Phil Karn's soft-decision Viterbi decoder, whose `int8_t`
convention puts the amplitude `A` at `+127`. -/
def SOFT_DECISION_VITERBI_HIGH : ℤ := 127

/-- Source `convert_to_viterbi_bit`:
`v = -x*scale; return (viterbi_bit_t)(v);` — the C float-to-integer cast
truncates toward zero. -/
def convert_to_viterbi_bit (x : ℚ) : ℤ :=
  ratTrunc (-x * (SOFT_DECISION_VITERBI_HIGH : ℚ))

/-- Spec-side conversion for the C6 refinement comparison, following the
spec's words: "`round(−x · VITERBI_HIGH)` clamped into the integer
soft-bit range". -/
def viterbiBitSpec (x : ℚ) : ℤ :=
  max (-SOFT_DECISION_VITERBI_HIGH)
    (min SOFT_DECISION_VITERBI_HIGH (round (-x * (SOFT_DECISION_VITERBI_HIGH : ℚ))))

/-! ### Normalization in `CalculateViterbiBits` (lines 848-870) -/

/-- Normalization divisor of `CalculateViterbiBits`:
`A = max(|vec.real()|, |vec.imag()|)` — computed with no zero guard. -/
def viterbiNormDivisor (vec : Cplx) : ℚ := max |vec.re| |vec.im|

/-- Soft-bit pair produced for one DQPSK vector element:
`norm_vec = vec / A`, then `convert_to_viterbi_bit(+norm_vec.real())` and
`convert_to_viterbi_bit(-norm_vec.imag())`. -/
def calculateViterbiBitsPair (vec : Cplx) : ℤ × ℤ :=
  let A := viterbiNormDivisor vec
  (convert_to_viterbi_bit (vec.re / A), convert_to_viterbi_bit (-(vec.im / A)))

/-! ### Differential QPSK (`OFDM_Demod::CalculateDQPSK`, lines 823-846, and
the `calculate_dqpsk` lambda of `PipelineThread`, lines 709-720) -/

/-- FFT bin index of data-carrier index `c`: `(nb_fft + i) % nb_fft`
(both C operands are non-negative for `|i| ≤ nb_fft`, so C `%` agrees
with the mathematical remainder). -/
def fftIndex (nfft : ℕ) (c : ℤ) : ℤ := ((nfft : ℤ) + c) % (nfft : ℤ)

/-- Carrier indices visited by the `CalculateDQPSK` loop, in loop order:
`i` from `-M` to `+M`, skipping the DC bin `i = 0`. -/
def carrierList (M : ℕ) : List ℤ :=
  ((List.range (2 * M + 1)).map (fun k : ℕ => ((k : ℤ) - (M : ℤ)))).filter (fun i => i != 0)

/-- Source `OFDM_Demod::CalculateDQPSK`: writes, for each visited carrier `i`,
`in1[fft_index] * conj(in0[fft_index])` into the next subcarrier slot. -/
def calculateDQPSK (in0 in1 : ℤ → Cplx) (M nfft : ℕ) : List Cplx :=
  (carrierList M).map
    (fun i => Cplx.mul (in1 (fftIndex nfft i)) (Cplx.conj (in0 (fftIndex nfft i))))

/-- Wiring of the `calculate_dqpsk` lambda in `PipelineThread`: for the
symbol pair `(s, s+1)` it calls `CalculateDQPSK(fft_buf_1, fft_buf_0, …)`,
i.e. the FFT of symbol `s+1` becomes `in0` and the FFT of symbol `s`
becomes `in1`. -/
def pipelineDQPSK (fft : ℕ → ℤ → Cplx) (s M nfft : ℕ) : List Cplx :=
  calculateDQPSK (fft (s + 1)) (fft s) M nfft

/-- Spec-side DQPSK entry for the C1 refinement comparison, following the
claim's words: `fft[s+1][fft_index(c)] · conj(fft[s][fft_index(c)])`. -/
def dqpskSpecEntry (fft : ℕ → ℤ → Cplx) (s nfft : ℕ) (c : ℤ) : Cplx :=
  Cplx.mul (fft (s + 1) (fftIndex nfft c)) (Cplx.conj (fft s (fftIndex nfft c)))

/-- Subcarrier slot into which carrier `c` is written by the loop. -/
def subcarrierIndex (M : ℕ) (c : ℤ) : ℕ :=
  if c < 0 then (c + M).toNat else (c + M - 1).toNat

/-- Concrete FFT data used by the C1 witness. -/
def sampleFFT : ℕ → ℤ → Cplx := fun s i => ⟨(s : ℚ), (i : ℚ)⟩

/-! ### Coarse frequency synchronisation (`OFDM_Demod::RunCoarseFreqSync`,
lines 362-451) -/

/-- Clamping of `max_carrier_offset` (step 7):
`if (max_carrier_offset < 0) max_carrier_offset = 0;`
`if (max_carrier_offset > M) max_carrier_offset = M;`. -/
def clampCarrierOffset (raw M : ℤ) : ℤ :=
  let a := if raw < 0 then 0 else raw
  if a > M then M else a

/-- Peak search of step 7 over `correlation_frequency_response`
(abstracted as `resp`): `max_index` starts at `-max_carrier_offset` with
`max_value = resp[max_index + M]`, then each `i ∈ [-mco, mco]` reads
`resp[i + M]` unless `i + M == nb_fft` (skipped), keeping the maximum.
Returns the winning offset `i*` and its value. -/
def coarseSearch (resp : ℤ → ℚ) (mco M nfft : ℤ) : ℤ × ℚ :=
  ((List.range (2 * mco + 1).toNat).map (fun k : ℕ => ((k : ℤ) - mco))).foldl
    (fun acc i =>
      let fft_index := i + M
      if fft_index = nfft then acc
      else if resp fft_index > acc.2 then (i, resp fft_index) else acc)
    (-mco, resp (M - mco))

/-- Indices of `correlation_frequency_response` read during the peak
search: the initial read at `max_index + M = M - mco` and every
non-skipped loop read `i + M`. -/
def coarseSearchIndices (raw nfft : ℤ) : List ℤ :=
  let M := nfft / 2
  let mco := clampCarrierOffset raw M
  (M - mco) ::
    (((List.range (2 * mco + 1).toNat).map (fun k : ℕ => ((k : ℤ) - mco))).filterMap
      (fun i => if i + M = nfft then none else some (i + M)))

/-- Predicted coarse offset of step 8:
`-float(max_index) / float(nb_fft)` for the winning search offset. -/
def coarsePredicted (resp : ℤ → ℚ) (raw : ℤ) (nfftN : ℕ) : ℚ :=
  let M := (nfftN : ℤ) / 2
  (-(((coarseSearch resp (clampCarrierOffset raw M) M (nfftN : ℤ)).1 : ℤ) : ℚ)) / (nfftN : ℚ)

/-- Steps 8-10 of `RunCoarseFreqSync`: error relative to the current
`freq_coarse_offset`, the fast/slow decision
(`is_large_correction || !is_found_coarse_freq_offset`), and the update
`freq_coarse_offset += beta * error`. -/
def coarseFreqUpdate (resp : ℤ → ℚ) (raw : ℤ) (nfftN : ℕ)
    (old slow_beta : ℚ) (is_found : Bool) : ℚ :=
  let error := coarsePredicted resp raw nfftN - old
  let is_fast := |error| > (3/2) / (nfftN : ℚ) ∨ is_found = false
  let beta := if is_fast then 1 else slow_beta
  old + beta * error

/-! ### Thread creation (`OFDM_Demod::CreateThreads`, lines 142-177) -/

/-- Worker count chosen by `CreateThreads`: `min(nb_syms, nb_desired)`
when a positive count is requested, otherwise `min(nb_syms, hw)` reduced
by one when that is more than one thread. -/
def createThreadsCount (nbSyms desired hw : ℤ) : ℤ :=
  if desired > 0 then min nbSyms desired
  else
    let n := min nbSyms hw
    if n > 1 then n - 1 else n

/-- Symbol-range carve of `CreateThreads`: starting at `start`, each
non-final worker receives `ceil(remaining_symbols / remaining_threads)`
symbols and the final worker receives the rest up to `nbSyms`. -/
def carve (nbSyms : ℕ) : ℕ → ℕ → List (ℕ × ℕ)
  | _, 0 => []
  | start, 1 => [(start, nbSyms)]
  | start, (t + 2) =>
    let e := start + (nbSyms - start + (t + 1)) / (t + 2)
    (start, e) :: carve nbSyms e (t + 1)

/-! ### Coordinator fine-frequency aggregation (`CoordinatorThread`,
lines 586-599, `CalculateFineFrequencyError`, lines 760-805, and the
phase-error sum of `PipelineThread`, lines 665-673) -/

/-- Phase-error value stored by one worker with symbol range `r`: the sum
of per-symbol cyclic phase errors over its non-NULL symbols
(`symbol_start ≤ s < min(symbol_end, nb_frame_symbols)`), with the
per-symbol value `CalculateCyclicPhaseError` abstracted as `ce`. -/
def workerPhaseError (ce : ℕ → ℚ) (K : ℕ) (r : ℕ × ℕ) : ℚ :=
  ∑ s ∈ Finset.Ico r.1 (min r.2 K), ce s

/-- Source `OFDM_Demod::CalculateFineFrequencyError`:
`fft_bin_spacing * cyclic_phase_error / TWO_PI` with
`fft_bin_spacing = 1/nb_fft`; the float constant `2π` is abstracted as
the parameter `twoPi`. -/
def calculateFineFrequencyError (nfft twoPi cyc : ℚ) : ℚ :=
  (1 / nfft) * cyc / twoPi

/-- Fine-frequency delta computed by one coordinator round:
`avg_cyclic_error` is the sum of all workers' stored values divided by
`nb_frame_symbols`, and `delta = -fine_freq_update_beta * fine_freq_error`. -/
def coordinatorFineFreqDelta (ce : ℕ → ℚ) (K t : ℕ) (nfft beta twoPi : ℚ) : ℚ :=
  let ranges := carve (K + 1) 0 t
  let avg := (ranges.map (workerPhaseError ce K)).sum / (K : ℚ)
  (-beta) * calculateFineFrequencyError nfft twoPi avg

/-! ### Ingest state machine (`OFDM_Demod::Process`, lines 237-277, and
its state handlers, lines 293-557)

The handlers are embedded with their control flow and all length/index
bookkeeping intact.  Quantities that depend on the sampled signal data
itself — the L1-average threshold comparisons of `FindNullPowerDip`, the
impulse-peak sufficiency test and weighted peak position of
`RunFineTimeSync`, and the winning bin of the coarse peak search — are
drawn from oracles carried in the state, so the theorems below hold for
every possible input signal.  The fill-to-capacity semantics of
`ConsumeBuffer` (and the saturating length of the circular
`null_power_dip_buffer`) are modelled from the spec, since the buffer
classes live in headers outside the sources at hand. -/

/-- FSM states of the ingest state machine. -/
inductive FSMState where
  | findingNullPowerDip
  | readingNullPRS
  | runningCoarseFreqSync
  | runningFineTimeSync
  | readingSymbols
deriving DecidableEq, Repr

/-- Static parameters and configuration fields read by the ingest loop.
`frameCap` is the total sample capacity of the symbol buffer
(`inactive_buffer`); the claims only need that a frame is longer than
one symbol period plus one cyclic prefix, carried as a hypothesis. -/
structure IngestParams where
  nb_fft : ℕ
  nb_cyclic : ℕ
  nb_symbol_period : ℕ
  nb_null_period : ℕ
  frameCap : ℕ
  K : ℕ
  is_coarse_freq_correction : Bool
  nfftQ : ℚ
  slow_beta : ℚ
deriving Repr

/-- Capacity of `correlation_time_buffer`:
`nb_null_period + nb_symbol_period`. -/
def corrCap (P : IngestParams) : ℕ := P.nb_null_period + P.nb_symbol_period

/-- Mutable demodulator state visible to the ingest loop, plus the two
data oracles: `flips` yields the outcome of each data comparison and
`peaks` each data-dependent peak position; `nflips`/`npeaks` advance
past every consumed oracle value. -/
structure Demod where
  state : FSMState
  corrLen : ℕ
  inactiveLen : ℕ
  dipLen : ℕ
  is_null_start_found : Bool
  is_null_end_found : Bool
  is_found_coarse : Bool
  freqCoarse : ℚ
  freqFine : ℚ
  fineTime : ℤ
  framesDesync : ℕ
  flips : ℕ → Bool
  nflips : ℕ
  peaks : ℕ → ℤ
  npeaks : ℕ

/-- Number of blocks examined by the `FindNullPowerDip` loop
(`for (i = 0; i < N - K; i += K)`, with the C `int` subtraction going
negative — hence zero blocks — when `N ≤ K`). -/
def nullScanBlocks (N K : ℕ) : ℕ := (N - K + (K - 1)) / K

/-- Block scan of `FindNullPowerDip` (lines 311-325): while hunting the
null start, each block tests `l1_avg < null_start_thresh`; once the start
is found, each block tests `l1_avg > null_end_thresh` and a hit breaks
with the block index. Arguments: remaining block count, current block
index, start-found flag, oracle position. Returns the breaking block (if
any), the final start-found flag, and the final oracle position. -/
def scanBlocks (flips : ℕ → Bool) : ℕ → ℕ → Bool → ℕ → Option ℕ × Bool × ℕ
  | 0, _, sf, used => (none, sf, used)
  | r + 1, j, true, used =>
    if flips used then (some j, true, used + 1)
    else scanBlocks flips r (j + 1) true (used + 1)
  | r + 1, j, false, used => scanBlocks flips r (j + 1) (flips used) (used + 1)

/-- Source `OFDM_Demod::FindNullPowerDip` (lines 293-349): scan blocks, append
the examined samples to the circular dip buffer (length saturating at
`nb_null_period`), and if the null end was found copy the dip buffer into
the front of `correlation_time_buffer`, clear the flags and move to
`READING_NULL_AND_PRS`. Returns samples consumed and the new state. -/
def findNullPowerDip (P : IngestParams) (d : Demod) (n : ℕ) : ℕ × Demod :=
  let scan := scanBlocks d.flips (nullScanBlocks n P.K) 0 d.is_null_start_found d.nflips
  let nb_read := match scan.1 with
    | some j => (j + 1) * P.K
    | none => n
  let dipLen' := min P.nb_null_period (d.dipLen + nb_read)
  match scan.1 with
  | none =>
    (nb_read, { d with is_null_start_found := scan.2.1, nflips := scan.2.2, dipLen := dipLen' })
  | some _ =>
    (nb_read,
      { d with
        nflips := scan.2.2,
        dipLen := 0,
        corrLen := dipLen',
        is_null_start_found := false,
        is_null_end_found := false,
        state := FSMState.readingNullPRS })

/-- Source `OFDM_Demod::ReadNullPRS` (lines 351-360): fill
`correlation_time_buffer` and move to coarse frequency sync when full. -/
def readNullPRS (P : IngestParams) (d : Demod) (n : ℕ) : ℕ × Demod :=
  let take := min (corrCap P - d.corrLen) n
  let len' := d.corrLen + take
  if len' = corrCap P then
    (take, { d with corrLen := len', state := FSMState.runningCoarseFreqSync })
  else
    (take, { d with corrLen := len' })

/-- Source `OFDM_Demod::RunCoarseFreqSync` (lines 362-451): consumes no input.
With coarse correction disabled, zero `freq_coarse_offset`; otherwise the
peak search yields a winning bin (abstracted through the `peaks` oracle),
`freq_coarse_offset += beta * error` with the fast/slow decision of step
9, and the fine offset is counter-adjusted by `-delta` through
`UpdateFineFrequencyOffset`. Both paths transition to fine time sync. -/
def runCoarseFreqSyncM (P : IngestParams) (d : Demod) : ℕ × Demod :=
  if P.is_coarse_freq_correction = false then
    (0, { d with freqCoarse := 0, state := FSMState.runningFineTimeSync })
  else
    let predicted := (-(d.peaks d.npeaks) : ℚ) / P.nfftQ
    let error := predicted - d.freqCoarse
    let is_fast := |error| > (3/2) / P.nfftQ ∨ d.is_found_coarse = false
    let beta := if is_fast then 1 else P.slow_beta
    let delta := beta * error
    (0, { d with
      freqCoarse := d.freqCoarse + delta,
      is_found_coarse := true,
      freqFine := updateFineFrequencyOffset P.nfftQ d.freqFine (-delta),
      npeaks := d.npeaks + 1,
      state := FSMState.runningFineTimeSync })

/-- Source `OFDM_Demod::RunFineTimeSync` (lines 453-528): consumes no input.
The weighted impulse peak position (an array index in `[0, nb_fft)`) is
drawn from the `peaks` oracle and the threshold comparison
`(impulse_max_value - impulse_avg) < impulse_peak_threshold_db` from the
`flips` oracle. An insufficient peak runs `Reset()` (lines 279-291);
otherwise `offset = peak - nb_cyclic_prefix`, the PRS tail
(`nb_symbol_period - offset` samples) is copied into the freshly reset
symbol buffer, the correlation buffer is cleared and reading begins. -/
def runFineTimeSyncM (P : IngestParams) (d : Demod) : ℕ × Demod :=
  let impulse_max_index := (d.peaks d.npeaks) % (P.nb_fft : ℤ)
  let offset := impulse_max_index - (P.nb_cyclic : ℤ)
  let prs_length := (P.nb_symbol_period : ℤ) - offset
  if d.flips d.nflips = true then
    (0, { d with
      state := FSMState.findingNullPowerDip,
      corrLen := 0,
      framesDesync := d.framesDesync + 1,
      is_found_coarse := false,
      freqCoarse := 0,
      freqFine := 0,
      fineTime := 0,
      nflips := d.nflips + 1,
      npeaks := d.npeaks + 1 })
  else
    (0, { d with
      inactiveLen := min P.frameCap prs_length.toNat,
      corrLen := 0,
      fineTime := offset,
      nflips := d.nflips + 1,
      npeaks := d.npeaks + 1,
      state := FSMState.readingSymbols })

/-- Source `OFDM_Demod::ReadSymbols` (lines 530-557): fill the symbol buffer; on
a full frame, prime `correlation_time_buffer` with the trailing NULL
symbol (`SetLength(nb_null_period)`), swap buffers at the coordinator
barrier, reset the new inactive buffer and return to reading NULL+PRS. -/
def readSymbols (P : IngestParams) (d : Demod) (n : ℕ) : ℕ × Demod :=
  let take := min (P.frameCap - d.inactiveLen) n
  let len' := d.inactiveLen + take
  if len' = P.frameCap then
    (take, { d with
      inactiveLen := 0,
      corrLen := P.nb_null_period,
      state := FSMState.readingNullPRS })
  else
    (take, { d with inactiveLen := len' })

/-- One iteration of the `Process` while-loop (lines 247-276): dispatch
on `state`, handing the handler the remaining sample count. -/
def ingestStep (P : IngestParams) (d : Demod) (n : ℕ) : ℕ × Demod :=
  match d.state with
  | FSMState.findingNullPowerDip => findNullPowerDip P d n
  | FSMState.readingNullPRS => readNullPRS P d n
  | FSMState.runningCoarseFreqSync => runCoarseFreqSyncM P d
  | FSMState.runningFineTimeSync => runFineTimeSyncM P d
  | FSMState.readingSymbols => readSymbols P d n

/-- The `Process` while-loop (`while (curr_index < N)`) with an explicit
iteration budget: `none` when the budget runs out before the batch is
consumed, otherwise the final state together with the total number of
samples consumed. -/
def processLoop (P : IngestParams) : ℕ → Demod → ℕ → Option (Demod × ℕ)
  | _, d, 0 => some (d, 0)
  | 0, _, _ + 1 => none
  | fuel + 1, d, n + 1 =>
    let step := ingestStep P d (n + 1)
    (processLoop P fuel step.2 (n + 1 - step.1)).map (fun r => (r.1, step.1 + r.2))

/-- Rank used to show the loop makes progress: the two zero-consumption
states can only chain for two iterations
(`RUNNING_COARSE_FREQ_SYNC → RUNNING_FINE_TIME_SYNC → consuming state`). -/
def stateRank : FSMState → ℕ
  | FSMState.runningCoarseFreqSync => 2
  | FSMState.runningFineTimeSync => 1
  | _ => 0

/-- Reachable-state invariant of the ingest loop: a state that is
currently filling a buffer has room left in it, and the circular dip
buffer never exceeds its capacity. -/
def IngestInv (P : IngestParams) (d : Demod) : Prop :=
  (d.state = FSMState.readingNullPRS → d.corrLen < corrCap P) ∧
  (d.state = FSMState.readingSymbols → d.inactiveLen < P.frameCap) ∧
  d.dipLen ≤ P.nb_null_period

/-- Concrete parameters used by the C3 and C7 witnesses. -/
def sampleParams : IngestParams :=
  { nb_fft := 4, nb_cyclic := 1, nb_symbol_period := 5, nb_null_period := 3,
    frameCap := 30, K := 2, is_coarse_freq_correction := true,
    nfftQ := 4, slow_beta := 1/10 }

/-- Concrete initial demodulator state used by the C3 and C7 witnesses
(constructor state, oracles constant). -/
def sampleDemod : Demod :=
  { state := FSMState.findingNullPowerDip, corrLen := 0, inactiveLen := 0,
    dipLen := 0, is_null_start_found := false, is_null_end_found := false,
    is_found_coarse := false, freqCoarse := 0, freqFine := 0, fineTime := 0,
    framesDesync := 0, flips := fun _ => true, nflips := 0,
    peaks := fun _ => 0, npeaks := 0 }

/-! ## Theorems -/

/-! ### Numeric base facts -/

theorem ratTrunc_eq_floor {q : ℚ} (h : 0 ≤ q) : ratTrunc q = ⌊q⌋ := by
  rw [ratTrunc, Rat.floor_def, Int.tdiv_eq_ediv (Rat.num_nonneg.mpr h) (Int.ofNat_nonneg q.den)]

theorem ratTrunc_neg (q : ℚ) : ratTrunc (-q) = -(ratTrunc q) := by
  simp [ratTrunc, Rat.neg_num, Int.neg_tdiv]

theorem ratTrunc_eq_ceil {q : ℚ} (h : q ≤ 0) : ratTrunc q = ⌈q⌉ := by
  have h0 : 0 ≤ -q := by linarith
  have := ratTrunc_eq_floor h0
  rw [ratTrunc_neg] at this
  have hfc : ⌊-q⌋ = -⌈q⌉ := Int.floor_neg
  omega

theorem ratTrunc_dist_lt_one (q : ℚ) : |q - (ratTrunc q : ℚ)| < 1 := by
  rcases le_or_lt 0 q with h | h
  · rw [ratTrunc_eq_floor h]
    have h1 : (⌊q⌋ : ℚ) ≤ q := Int.floor_le q
    have h2 : q < ⌊q⌋ + 1 := Int.lt_floor_add_one q
    rw [abs_lt]
    constructor <;> linarith
  · rw [ratTrunc_eq_ceil (le_of_lt h)]
    have h1 : q ≤ (⌈q⌉ : ℚ) := Int.le_ceil q
    have h2 : (⌈q⌉ : ℚ) < q + 1 := Int.ceil_lt_add_one q
    rw [abs_lt]
    constructor <;> linarith

/-- The defining bound of `fmod`: for a positive modulus the result is
strictly smaller than the modulus in absolute value. -/
theorem abs_ratFmod_lt {y : ℚ} (x : ℚ) (hy : 0 < y) : |ratFmod x y| < y := by
  have hyne : y ≠ 0 := ne_of_gt hy
  have hx : x = (x / y) * y := by field_simp
  have : ratFmod x y = (x / y - (ratTrunc (x / y) : ℚ)) * y := by
    rw [ratFmod]
    nth_rewrite 1 [hx]
    ring
  rw [this, abs_mul, abs_of_pos hy]
  have hd := ratTrunc_dist_lt_one (x / y)
  calc |x / y - (ratTrunc (x / y) : ℚ)| * y < 1 * y := by
        exact mul_lt_mul_of_pos_right hd hy
    _ = y := one_mul y

/-- Truncation toward zero never increases the absolute value past an
integer bound on the argument. -/
theorem abs_ratTrunc_le {q : ℚ} {A : ℤ} (h : |q| ≤ (A : ℚ)) : |ratTrunc q| ≤ A := by
  rcases le_or_lt 0 q with h0 | h0
  · rw [ratTrunc_eq_floor h0]
    rw [abs_of_nonneg h0] at h
    have h1 : (0 : ℤ) ≤ ⌊q⌋ := Int.floor_nonneg.mpr h0
    have h2 : ⌊q⌋ ≤ A := by
      have : (⌊q⌋ : ℚ) ≤ (A : ℚ) := le_trans (Int.floor_le q) h
      exact_mod_cast this
    rw [abs_of_nonneg h1]
    exact h2
  · rw [ratTrunc_eq_ceil (le_of_lt h0)]
    rw [abs_of_neg h0] at h
    have h1 : ⌈q⌉ ≤ 0 := by
      have : (⌈q⌉ : ℚ) < 1 := by linarith [Int.ceil_lt_add_one q]
      have h1c : ⌈q⌉ < 1 := by exact_mod_cast this
      omega
    have h2 : -A ≤ ⌈q⌉ := by
      have hAq : ((-A : ℤ) : ℚ) ≤ (⌈q⌉ : ℚ) := by
        push_cast
        linarith [Int.le_ceil q]
      exact_mod_cast hAq
    rw [abs_le]
    omega

/-! ### C2: bound on `freq_fine_offset` -/

theorem wrapLimit_pos {nfft : ℚ} (h : 1 ≤ nfft) : 0 < wrapLimit nfft := by
  have h0 : 0 < nfft := lt_of_lt_of_le one_pos h
  rw [wrapLimit]
  positivity

/-- C2: at every point of every execution — after construction, after
every call to `UpdateFineFrequencyOffset` and after every `Reset` —
`freq_fine_offset` lies in `[-0.5/nb_fft * 1.01, +0.5/nb_fft * 1.01]`. -/
theorem freq_fine_offset_bounded {nfft : ℚ} (h : 1 ≤ nfft) (ops : List FineFreqOp) :
    |ffoRun nfft ops| ≤ wrapLimit nfft := by
  have hw : 0 < wrapLimit nfft := wrapLimit_pos h
  rw [ffoRun]
  induction ops using List.reverseRecOn with
  | nil =>
    simpa using le_of_lt hw
  | append_singleton ops op _ =>
    rw [List.foldl_append, List.foldl_cons, List.foldl_nil]
    cases op with
    | update delta =>
      exact le_of_lt (abs_ratFmod_lt _ hw)
    | reset =>
      simpa using le_of_lt hw

/-- Witness for C2 at `nfft = 2048` after one update. -/
theorem freq_fine_offset_bounded_witness :
    (1 : ℚ) ≤ 2048 ∧ |ffoRun 2048 [FineFreqOp.update 1]| ≤ wrapLimit 2048 :=
  ⟨by norm_num, freq_fine_offset_bounded (by norm_num) [FineFreqOp.update 1]⟩

/-! ### C6: soft-bit conversion -/

/-- C6 counterexample: at `x = -1/128` the code truncates
`-x*127 = 127/128` to `0`, while the claimed rounding gives `1`. -/
theorem convert_to_viterbi_bit_ne_spec :
    convert_to_viterbi_bit (-1/128) ≠ viterbiBitSpec (-1/128) := by
  have hcode : convert_to_viterbi_bit (-1/128) = 0 := by
    rw [convert_to_viterbi_bit, SOFT_DECISION_VITERBI_HIGH]
    rw [show (-(-1/128 : ℚ) * (127 : ℤ)) = 127/128 by push_cast; ring]
    rw [ratTrunc_eq_floor (by norm_num)]
    norm_num [Int.floor_eq_iff]
  have hspec : viterbiBitSpec (-1/128) = 1 := by
    rw [viterbiBitSpec, SOFT_DECISION_VITERBI_HIGH]
    rw [show (-(-1/128 : ℚ) * (127 : ℤ)) = 127/128 by push_cast; ring]
    rw [round_eq]
    norm_num [Int.floor_eq_iff]
  rw [hcode, hspec]
  decide

/-- Shared bound: for inputs in `[-1, 1]` the truncated soft bit lies in
the soft-bit range. -/
theorem abs_convert_to_viterbi_bit_le {x : ℚ} (h1 : -1 ≤ x) (h2 : x ≤ 1) :
    |convert_to_viterbi_bit x| ≤ SOFT_DECISION_VITERBI_HIGH := by
  rw [convert_to_viterbi_bit]
  apply abs_ratTrunc_le
  rw [abs_mul, abs_neg]
  have hx : |x| ≤ 1 := abs_le.mpr ⟨h1, h2⟩
  have hA : |((SOFT_DECISION_VITERBI_HIGH : ℤ) : ℚ)| = ((SOFT_DECISION_VITERBI_HIGH : ℤ) : ℚ) := by
    rw [SOFT_DECISION_VITERBI_HIGH]
    norm_num
  rw [hA]
  nlinarith [abs_nonneg x,
    show ((SOFT_DECISION_VITERBI_HIGH : ℤ) : ℚ) = 127 by norm_num [SOFT_DECISION_VITERBI_HIGH]]

/-- C6 amended: `convert_to_viterbi_bit(x)` equals `-x * A` truncated
toward zero (no rounding, no clamping); for `x ∈ [-1, 1]` the result
lies in the soft-bit range `[-A, +A]`. -/
theorem convert_to_viterbi_bit_trunc {x : ℚ} (h1 : -1 ≤ x) (h2 : x ≤ 1) :
    convert_to_viterbi_bit x = ratTrunc (-x * (SOFT_DECISION_VITERBI_HIGH : ℚ)) ∧
    |convert_to_viterbi_bit x| ≤ SOFT_DECISION_VITERBI_HIGH :=
  ⟨rfl, abs_convert_to_viterbi_bit_le h1 h2⟩

/-- Witness for the amended C6 at `x = 1/2`. -/
theorem convert_to_viterbi_bit_trunc_witness :
    (-1 : ℚ) ≤ 1/2 ∧ (1/2 : ℚ) ≤ 1 ∧
    (convert_to_viterbi_bit (1/2) = ratTrunc (-(1/2 : ℚ) * (SOFT_DECISION_VITERBI_HIGH : ℚ)) ∧
      |convert_to_viterbi_bit (1/2)| ≤ SOFT_DECISION_VITERBI_HIGH) :=
  ⟨by norm_num, by norm_num, convert_to_viterbi_bit_trunc (by norm_num) (by norm_num)⟩

/-! ### C10: normalization bounds -/

/-- C10: for every element with `A > 0`, both produced soft bits have
magnitude at most `SOFT_DECISION_VITERBI_HIGH`; for the zero element the
divisor used by the unguarded division is exactly `0`. -/
theorem calculateViterbiBits_bounds (vec : Cplx) :
    (0 < viterbiNormDivisor vec →
      |(calculateViterbiBitsPair vec).1| ≤ SOFT_DECISION_VITERBI_HIGH ∧
      |(calculateViterbiBitsPair vec).2| ≤ SOFT_DECISION_VITERBI_HIGH) ∧
    (vec = ⟨0, 0⟩ → viterbiNormDivisor vec = 0) := by
  constructor
  · intro hA
    have hre : |vec.re / viterbiNormDivisor vec| ≤ 1 := by
      rw [abs_div, abs_of_pos hA]
      rw [div_le_one hA]
      exact le_max_left _ _
    have him : |vec.im / viterbiNormDivisor vec| ≤ 1 := by
      rw [abs_div, abs_of_pos hA]
      rw [div_le_one hA]
      exact le_max_right _ _
    constructor
    · exact abs_convert_to_viterbi_bit_le (abs_le.mp hre).1 (abs_le.mp hre).2
    · have hneg : -(vec.im / viterbiNormDivisor vec) ∈ Set.Icc (-1 : ℚ) 1 := by
        constructor <;> [linarith [(abs_le.mp him).2]; linarith [(abs_le.mp him).1]]
      exact abs_convert_to_viterbi_bit_le hneg.1 hneg.2
  · intro hv
    rw [hv, viterbiNormDivisor]
    norm_num

/-- Witness for C10 at `vec = 1 + 0i`. -/
theorem calculateViterbiBits_bounds_witness :
    0 < viterbiNormDivisor ⟨1, 0⟩ ∧
    (|(calculateViterbiBitsPair ⟨1, 0⟩).1| ≤ SOFT_DECISION_VITERBI_HIGH ∧
      |(calculateViterbiBitsPair ⟨1, 0⟩).2| ≤ SOFT_DECISION_VITERBI_HIGH) := by
  have hpos : 0 < viterbiNormDivisor ⟨1, 0⟩ := by
    rw [viterbiNormDivisor]
    norm_num
  exact ⟨hpos, (calculateViterbiBits_bounds ⟨1, 0⟩).1 hpos⟩

/-! ### C1: DQPSK entries -/

theorem carrierList_eq (M : ℕ) :
    carrierList M =
      ((List.range M).map (fun k : ℕ => ((k : ℤ) - (M : ℤ)))) ++
        ((List.range M).map (fun k : ℕ => ((k : ℤ) + 1))) := by
  rw [carrierList, show 2 * M + 1 = (M + 1) + M by omega, List.range_add]
  rw [List.map_append, List.filter_append, List.map_map]
  congr 1
  · rw [List.range_succ, List.map_append]
    rw [List.filter_append]
    have h1 : (List.filter (fun i => i != 0)
        ((List.range M).map (fun k : ℕ => ((k : ℤ) - (M : ℤ))))) =
        (List.range M).map (fun k : ℕ => ((k : ℤ) - (M : ℤ))) := by
      apply List.filter_eq_self.mpr
      intro a ha
      rcases List.mem_map.mp ha with ⟨k, hk, rfl⟩
      have : k < M := List.mem_range.mp hk
      simp only [bne_iff_ne, ne_eq]
      omega
    have h2 : (List.filter (fun i => i != 0)
        ([M].map (fun k : ℕ => ((k : ℤ) - (M : ℤ))))) = [] := by
      simp
    rw [h1, h2, List.append_nil]
  · have h3 : ((List.range M).map ((fun k : ℕ => ((k : ℤ) - (M : ℤ))) ∘ (fun x => M + 1 + x))) =
        (List.range M).map (fun k : ℕ => ((k : ℤ) + 1)) := by
      apply List.map_congr_left
      intro k _
      simp only [Function.comp_apply]
      push_cast
      ring
    rw [h3]
    apply List.filter_eq_self.mpr
    intro a ha
    rcases List.mem_map.mp ha with ⟨k, _, rfl⟩
    simp only [bne_iff_ne, ne_eq]
    omega

/-- C1 counterexample: with `M = 1`, `nb_fft = 4`, `s = 0`,
`fft[0] ≡ i` and `fft[1] ≡ 1`, the vector entry written for carrier
`c = 1` is `fft[0]·conj(fft[1]) = i`, not the claimed
`fft[1]·conj(fft[0]) = -i`. -/
theorem dqpsk_entry_ne_spec :
    (pipelineDQPSK (fun s _ => if s = 0 then ⟨0, 1⟩ else ⟨1, 0⟩) 0 1 4)[subcarrierIndex 1 1]? ≠
      some (dqpskSpecEntry (fun s _ => if s = 0 then ⟨0, 1⟩ else ⟨1, 0⟩) 0 4 1) := by
  have hcl : carrierList 1 = [-1, 1] := by
    rw [carrierList_eq]
    simp [List.range_succ]
  rw [pipelineDQPSK, calculateDQPSK, hcl, subcarrierIndex, dqpskSpecEntry]
  simp only [List.map_cons, List.map_nil]
  norm_num [Cplx.mul, Cplx.conj, fftIndex]

/-- C1 amended: for every symbol pair `(s, s+1)` and every data-carrier
index `c ∈ [-M, M] \ {0}`, the DQPSK vector entry written for carrier `c`
equals `fft[s][fft_index(c)] · conj(fft[s+1][fft_index(c)])` — the
complex conjugate of the product stated in the claim. -/
theorem dqpsk_entry_eq (fft : ℕ → ℤ → Cplx) (s M nfft : ℕ) (c : ℤ)
    (h1 : -(M : ℤ) ≤ c) (h2 : c ≤ M) (h3 : c ≠ 0) :
    (pipelineDQPSK fft s M nfft)[subcarrierIndex M c]? =
      some (Cplx.mul (fft s (fftIndex nfft c))
        (Cplx.conj (fft (s + 1) (fftIndex nfft c)))) := by
  rw [pipelineDQPSK, calculateDQPSK, List.getElem?_map, carrierList_eq]
  have hlenA : ((List.range M).map (fun k : ℕ => ((k : ℤ) - (M : ℤ)))).length = M := by
    simp
  rcases lt_or_gt_of_ne h3 with hneg | hpos
  · have hidx : subcarrierIndex M c = (c + M).toNat := by
      rw [subcarrierIndex, if_pos hneg]
    have hlt : (c + M).toNat < M := by omega
    rw [hidx, List.getElem?_append_left (by rw [hlenA]; omega)]
    rw [List.getElem?_map, List.getElem?_range (by omega)]
    have harg : (((c + (M : ℤ)).toNat : ℤ) - (M : ℤ)) = c := by omega
    simp only [Option.map_some', harg]
  · have hidx : subcarrierIndex M c = (c + M - 1).toNat := by
      rw [subcarrierIndex, if_neg (by omega)]
    rw [hidx, List.getElem?_append_right (by rw [hlenA]; omega)]
    rw [hlenA, List.getElem?_map, List.getElem?_range (by omega)]
    have harg : ((((c + (M : ℤ) - 1).toNat - M : ℕ) : ℤ) + 1) = c := by omega
    simp only [Option.map_some', harg]

/-- Witness for the amended C1 at `M = 1`, `nb_fft = 4`, `s = 0`, `c = 1`. -/
theorem dqpsk_entry_eq_witness :
    (-(1 : ℤ) ≤ 1 ∧ (1 : ℤ) ≤ 1 ∧ (1 : ℤ) ≠ 0) ∧
    (pipelineDQPSK sampleFFT 0 1 4)[subcarrierIndex 1 1]? =
      some (Cplx.mul (sampleFFT 0 (fftIndex 4 1))
        (Cplx.conj (sampleFFT (0 + 1) (fftIndex 4 1)))) :=
  ⟨⟨by decide, by decide, by decide⟩,
    dqpsk_entry_eq sampleFFT 0 1 4 1 (by decide) (by decide) (by decide)⟩

/-! ### C9: coarse peak search stays in bounds -/

theorem clampCarrierOffset_bounds (raw M : ℤ) (hM : 0 ≤ M) :
    0 ≤ clampCarrierOffset raw M ∧ clampCarrierOffset raw M ≤ M := by
  rw [clampCarrierOffset]
  split <;> split <;> omega

/-- C9: for every configuration value, every read of
`correlation_frequency_response` during the coarse peak search — the
initial read at `max_index + nb_fft/2` included — uses an index in
`[0, nb_fft)`. -/
theorem coarseSearchIndices_in_bounds (raw nfft : ℤ) (h : 1 ≤ nfft) :
    ∀ idx ∈ coarseSearchIndices raw nfft, 0 ≤ idx ∧ idx < nfft := by
  intro idx hidx
  rw [coarseSearchIndices] at hidx
  have hM : 0 ≤ nfft / 2 := by omega
  obtain ⟨hmco0, hmcoM⟩ := clampCarrierOffset_bounds raw (nfft / 2) hM
  rcases List.mem_cons.mp hidx with hhead | htail
  · subst hhead
    omega
  · rcases List.mem_filterMap.mp htail with ⟨i, hi, hsome⟩
    rcases List.mem_map.mp hi with ⟨k, hk, rfl⟩
    have hklt := List.mem_range.mp hk
    by_cases hskip : (k : ℤ) - clampCarrierOffset raw (nfft / 2) + nfft / 2 = nfft
    · rw [if_pos hskip] at hsome
      exact absurd hsome (by simp)
    · rw [if_neg hskip] at hsome
      have : idx = (k : ℤ) - clampCarrierOffset raw (nfft / 2) + nfft / 2 :=
        (Option.some_injective _ hsome).symm
      omega

/-- Witness for C9 at `raw = 3`, `nfft = 8`, reading the initial index `1`. -/
theorem coarseSearchIndices_in_bounds_witness :
    (1 : ℤ) ≤ 8 ∧ (1 : ℤ) ∈ coarseSearchIndices 3 8 ∧ (0 ≤ (1 : ℤ) ∧ (1 : ℤ) < 8) :=
  ⟨by decide, by decide,
    coarseSearchIndices_in_bounds 3 8 (by decide) 1 (by decide)⟩

/-! ### C8: fast coarse update lands on a bin multiple -/

/-- C8: after a fast coarse-frequency update (taken because the error
exceeds `1.5/nb_fft` or because `is_found_coarse_freq_offset` was false,
so `beta = 1`), `freq_coarse_offset` equals `-i*/nb_fft` for the winning
search offset `i*` — an integer multiple of `1/nb_fft` — regardless of
the previous value of `freq_coarse_offset`. -/
theorem coarse_fast_update (resp : ℤ → ℚ) (raw : ℤ) (nfftN : ℕ)
    (old slow_beta : ℚ) (is_found : Bool)
    (hfast : |coarsePredicted resp raw nfftN - old| > (3/2) / (nfftN : ℚ) ∨ is_found = false) :
    coarseFreqUpdate resp raw nfftN old slow_beta is_found =
      -(((coarseSearch resp (clampCarrierOffset raw ((nfftN : ℤ) / 2)) ((nfftN : ℤ) / 2)
          (nfftN : ℤ)).1 : ℤ) : ℚ) / (nfftN : ℚ) ∧
    ∃ k : ℤ, coarseFreqUpdate resp raw nfftN old slow_beta is_found = (k : ℚ) / (nfftN : ℚ) := by
  have hupd : coarseFreqUpdate resp raw nfftN old slow_beta is_found =
      coarsePredicted resp raw nfftN := by
    rw [coarseFreqUpdate, if_pos hfast]
    ring
  constructor
  · rw [hupd, coarsePredicted]
  · refine ⟨-(coarseSearch resp (clampCarrierOffset raw ((nfftN : ℤ) / 2)) ((nfftN : ℤ) / 2)
      (nfftN : ℤ)).1, ?_⟩
    rw [hupd, coarsePredicted]
    push_cast
    ring

/-- Witness for C8 with a flat response, `raw = 1`, `nfft = 8`,
`old = 5`, fast because `is_found_coarse_freq_offset` is false. -/
theorem coarse_fast_update_witness :
    (|coarsePredicted (fun _ => 0) 1 8 - 5| > (3/2) / ((8 : ℕ) : ℚ) ∨ (false = false)) ∧
    (coarseFreqUpdate (fun _ => 0) 1 8 5 (1/10) false =
      -(((coarseSearch (fun _ => 0) (clampCarrierOffset 1 (((8 : ℕ) : ℤ) / 2)) (((8 : ℕ) : ℤ) / 2)
          ((8 : ℕ) : ℤ)).1 : ℤ) : ℚ) / ((8 : ℕ) : ℚ) ∧
      ∃ k : ℤ, coarseFreqUpdate (fun _ => 0) 1 8 5 (1/10) false = (k : ℚ) / ((8 : ℕ) : ℚ)) :=
  ⟨Or.inr rfl, coarse_fast_update (fun _ => 0) 1 8 5 (1/10) false (Or.inr rfl)⟩

/-! ### C5: number of pipeline workers -/

/-- C5 counterexample: with `nb_frame_symbols = 76` (mode I, so
`nb_syms = 77`) on a single-core host (`hardware_concurrency = 1`) in
auto mode, the code creates `1` worker, which exceeds the claimed cap
`min(nb_frame_symbols + 1, hardware_concurrency - 1) = 0`. -/
theorem createThreadsCount_exceeds_claimed_cap :
    ¬(createThreadsCount 77 0 1 ≤ min 77 (1 - 1)) := by
  decide

/-- C5 amended: with a positive request the worker count is exactly
`min(nb_frame_symbols + 1, nb_desired_threads)`; in auto mode
(`nb_desired_threads ≤ 0`) it is capped by
`min(nb_frame_symbols + 1, max(hardware_concurrency - 1, 1))`. -/
theorem createThreadsCount_caps (nbFrameSymbols : ℕ) (desired hw : ℤ) (hhw : 0 ≤ hw) :
    (desired > 0 →
      createThreadsCount ((nbFrameSymbols : ℤ) + 1) desired hw =
        min ((nbFrameSymbols : ℤ) + 1) desired) ∧
    (desired ≤ 0 →
      createThreadsCount ((nbFrameSymbols : ℤ) + 1) desired hw ≤
        min ((nbFrameSymbols : ℤ) + 1) (max (hw - 1) 1)) := by
  constructor
  · intro hpos
    rw [createThreadsCount, if_pos hpos]
  · intro hnonpos
    rw [createThreadsCount, if_neg (by omega)]
    have hS : (0 : ℤ) < (nbFrameSymbols : ℤ) + 1 := by positivity
    dsimp only
    split <;> omega

/-- Witness for the amended C5 at `nb_frame_symbols = 76`, `hw = 8`,
exercising the positive-request branch with `desired = 4`. -/
theorem createThreadsCount_caps_witness :
    (0 : ℤ) ≤ 8 ∧
    ((4 : ℤ) > 0 → createThreadsCount ((76 : ℕ) + 1 : ℤ) 4 8 = min ((76 : ℕ) + 1 : ℤ) 4) ∧
    ((4 : ℤ) ≤ 0 → createThreadsCount ((76 : ℕ) + 1 : ℤ) 4 8 ≤
      min ((76 : ℕ) + 1 : ℤ) (max (8 - 1) 1)) :=
  ⟨by decide, (createThreadsCount_caps 76 4 8 (by decide)).1,
    (createThreadsCount_caps 76 4 8 (by decide)).2⟩

/-! ### C4: coordinator fine-frequency aggregation -/

theorem Ico_min_sum (ce : ℕ → ℚ) (a b K : ℕ) :
    ∑ s ∈ Finset.Ico a (min b K), ce s = ∑ s ∈ Finset.Ico (min a K) (min b K), ce s := by
  congr 1
  apply Finset.ext
  intro x
  simp only [Finset.mem_Ico]
  omega

/-- The carve of `CreateThreads` partitions the symbols: summing each
worker's non-NULL range sums every non-NULL symbol exactly once. -/
theorem carve_sum (ce : ℕ → ℚ) (K nbSyms : ℕ) :
    ∀ t start, 1 ≤ t → start + t ≤ nbSyms →
      ((carve nbSyms start t).map (workerPhaseError ce K)).sum =
        ∑ s ∈ Finset.Ico (min start K) (min nbSyms K), ce s := by
  intro t
  induction t with
  | zero =>
    intro start h1 _
    omega
  | succ n ih =>
    intro start h1 h2
    match n with
    | 0 =>
      simp only [carve, List.map_cons, List.map_nil, List.sum_cons, List.sum_nil, add_zero]
      rw [workerPhaseError]
      exact Ico_min_sum ce start nbSyms K
    | m + 1 =>
      simp only [carve, List.map_cons, List.sum_cons]
      have hd1 : 1 ≤ (nbSyms - start + (m + 1)) / (m + 2) := by
        rw [Nat.one_le_div_iff (by omega)]
        omega
      have hdub : ((nbSyms - start + (m + 1)) / (m + 2)) * (m + 2) ≤
          nbSyms - start + (m + 1) := Nat.div_mul_le_self _ _
      have hdr : (nbSyms - start + (m + 1)) / (m + 2) + m + 1 ≤ nbSyms - start := by
        by_contra hcon
        push_neg at hcon
        have hsplit : (nbSyms - start + (m + 1)) / (m + 2) = 1 ∨
            2 ≤ (nbSyms - start + (m + 1)) / (m + 2) := by omega
        rcases hsplit with hone | h2d
        · omega
        · have hA : ((nbSyms - start + (m + 1)) / (m + 2)) * (m + 1) +
              ((nbSyms - start + (m + 1)) / (m + 2)) =
              ((nbSyms - start + (m + 1)) / (m + 2)) * (m + 2) := by ring
          have hC : 2 * (m + 1) ≤ ((nbSyms - start + (m + 1)) / (m + 2)) * (m + 1) :=
            Nat.mul_le_mul_right (m + 1) h2d
          linarith
      have hih := ih (start + (nbSyms - start + (m + 1)) / (m + 2)) (by omega) (by omega)
      rw [hih, workerPhaseError]
      rw [Ico_min_sum ce start (start + (nbSyms - start + (m + 1)) / (m + 2)) K]
      apply Finset.sum_Ico_consecutive
      · omega
      · omega

/-- C4: the fine-frequency delta applied by the coordinator equals
`-fine_freq_update_beta * (1/nb_fft) * avg_cyclic_error / (2π)` where
`avg_cyclic_error` is the sum of the workers' stored phase-error values
divided by `nb_frame_symbols` — which, because each worker stores the
sum over its non-NULL symbols and the carve partitions the frame, is the
mean cyclic error over all `nb_frame_symbols` non-NULL symbols — and the
result is wrapped by `fmod` to within `±0.5 * (1/nb_fft) * 1.01`. -/
theorem coordinator_fine_update (ce : ℕ → ℚ) (K t : ℕ) (nfft beta twoPi old : ℚ)
    (ht1 : 1 ≤ t) (ht2 : t ≤ K + 1) (hn : 1 ≤ nfft) :
    updateFineFrequencyOffset nfft old (coordinatorFineFreqDelta ce K t nfft beta twoPi) =
      ratFmod (old + (-beta) * ((1 / nfft) * ((∑ s ∈ Finset.range K, ce s) / (K : ℚ)) / twoPi))
        (wrapLimit nfft) ∧
    |updateFineFrequencyOffset nfft old (coordinatorFineFreqDelta ce K t nfft beta twoPi)| ≤
      wrapLimit nfft := by
  have hsum := carve_sum ce K (K + 1) t 0 ht1 (by omega)
  have hmin0 : min 0 K = 0 := by omega
  have hminK : min (K + 1) K = K := by omega
  rw [hmin0, hminK, ← Finset.range_eq_Ico] at hsum
  constructor
  · rw [updateFineFrequencyOffset, coordinatorFineFreqDelta]
    rw [hsum, calculateFineFrequencyError]
  · exact le_of_lt (abs_ratFmod_lt _ (wrapLimit_pos hn))

/-- Witness for C4 at `nb_frame_symbols = 2`, `2` workers, `nfft = 4`. -/
theorem coordinator_fine_update_witness :
    ((1 : ℕ) ≤ 2 ∧ (2 : ℕ) ≤ 2 + 1 ∧ (1 : ℚ) ≤ 4) ∧
    (updateFineFrequencyOffset 4 0 (coordinatorFineFreqDelta (fun _ => 0) 2 2 4 1 6) =
      ratFmod (0 + (-(1 : ℚ)) *
        ((1 / 4) * ((∑ s ∈ Finset.range 2, (fun _ => (0 : ℚ)) s) / ((2 : ℕ) : ℚ)) / 6))
        (wrapLimit 4) ∧
      |updateFineFrequencyOffset 4 0 (coordinatorFineFreqDelta (fun _ => 0) 2 2 4 1 6)| ≤
        wrapLimit 4) :=
  ⟨⟨by norm_num, by norm_num, by norm_num⟩,
    coordinator_fine_update (fun _ => 0) 2 2 4 1 6 0 (by norm_num) (by norm_num) (by norm_num)⟩

/-! ### C3/C7: the ingest loop -/

theorem scanBlocks_some_lt (flips : ℕ → Bool) :
    ∀ r j sf used jb sf' used',
      scanBlocks flips r j sf used = (some jb, sf', used') → jb < j + r := by
  intro r
  induction r with
  | zero =>
    intro j sf used jb sf' used' h
    cases sf <;> simp [scanBlocks] at h
  | succ m ih =>
    intro j sf used jb sf' used' h
    cases sf with
    | false =>
      rw [scanBlocks] at h
      have := ih (j + 1) (flips used) (used + 1) jb sf' used' h
      omega
    | true =>
      rw [scanBlocks] at h
      by_cases hf : flips used
      · rw [if_pos hf] at h
        have : j = jb := by
          have := congrArg Prod.fst h
          simpa using this
        omega
      · rw [if_neg hf] at h
        have := ih (j + 1) true (used + 1) jb sf' used' h
        omega

theorem findNullPowerDip_consumed (P : IngestParams) (hK : 1 ≤ P.K)
    (d : Demod) (n : ℕ) (hn : 1 ≤ n) :
    1 ≤ (findNullPowerDip P d n).1 ∧ (findNullPowerDip P d n).1 ≤ n := by
  rw [findNullPowerDip]
  rcases hscan : (scanBlocks d.flips (nullScanBlocks n P.K) 0 d.is_null_start_found d.nflips)
    with ⟨brk, sf', used'⟩
  cases brk with
  | none =>
    simp only [hscan]
    exact ⟨hn, le_refl n⟩
  | some j =>
    simp only [hscan]
    have hjlt : j < 0 + nullScanBlocks n P.K :=
      scanBlocks_some_lt d.flips (nullScanBlocks n P.K) 0 d.is_null_start_found d.nflips
        j sf' used' hscan
    have h1 : (j + 1) * P.K ≤ nullScanBlocks n P.K * P.K :=
      Nat.mul_le_mul_right P.K (by omega)
    have h2 : nullScanBlocks n P.K * P.K ≤ n - P.K + (P.K - 1) := by
      rw [nullScanBlocks]
      exact Nat.div_mul_le_self _ _
    have h3 : 1 * P.K ≤ (j + 1) * P.K := Nat.mul_le_mul_right P.K (by omega)
    have h4 : P.K ≤ n - P.K + (P.K - 1) := by
      calc P.K = 1 * P.K := (one_mul _).symm
        _ ≤ (j + 1) * P.K := h3
        _ ≤ nullScanBlocks n P.K * P.K := h1
        _ ≤ n - P.K + (P.K - 1) := h2
    have h5 : n - P.K + (P.K - 1) ≤ n - 1 := by omega
    constructor
    · calc 1 ≤ P.K := hK
        _ = 1 * P.K := (one_mul _).symm
        _ ≤ (j + 1) * P.K := h3
    · calc (j + 1) * P.K ≤ nullScanBlocks n P.K * P.K := h1
        _ ≤ n - P.K + (P.K - 1) := h2
        _ ≤ n - 1 := h5
        _ ≤ n := Nat.sub_le n 1

theorem findNullPowerDip_spec (P : IngestParams) (hK : 1 ≤ P.K) (hsp : 1 ≤ P.nb_symbol_period)
    (d : Demod) (hst : d.state = FSMState.findingNullPowerDip) (n : ℕ) (hn : 1 ≤ n) :
    1 ≤ (findNullPowerDip P d n).1 ∧ (findNullPowerDip P d n).1 ≤ n ∧
      IngestInv P (findNullPowerDip P d n).2 := by
  refine ⟨(findNullPowerDip_consumed P hK d n hn).1,
    (findNullPowerDip_consumed P hK d n hn).2, ?_⟩
  rw [IngestInv]
  rcases hscan : scanBlocks d.flips (nullScanBlocks n P.K) 0 d.is_null_start_found d.nflips
    with ⟨brk, sf', used'⟩
  cases brk with
  | none =>
    have hres : (findNullPowerDip P d n).2 =
        { d with
          is_null_start_found := sf',
          nflips := used',
          dipLen := min P.nb_null_period (d.dipLen + n) } := by
      simp [findNullPowerDip, hscan]
    rw [hres]
    refine ⟨fun h => ?_, fun h => ?_, ?_⟩
    · simp [hst] at h
    · simp [hst] at h
    · simp only
      exact Nat.min_le_left _ _
  | some j =>
    have hres : (findNullPowerDip P d n).2 =
        { d with
          nflips := used',
          dipLen := 0,
          corrLen := min P.nb_null_period (d.dipLen + (j + 1) * P.K),
          is_null_start_found := false,
          is_null_end_found := false,
          state := FSMState.readingNullPRS } := by
      simp [findNullPowerDip, hscan]
    rw [hres]
    refine ⟨fun _ => ?_, fun h => ?_, ?_⟩
    · simp only [corrCap]
      have := Nat.min_le_left P.nb_null_period (d.dipLen + (j + 1) * P.K)
      omega
    · simp at h
    · simp only
      omega

theorem readNullPRS_spec (P : IngestParams)
    (d : Demod) (hst : d.state = FSMState.readingNullPRS)
    (hcorr : d.corrLen < corrCap P) (hdip : d.dipLen ≤ P.nb_null_period)
    (n : ℕ) (hn : 1 ≤ n) :
    1 ≤ (readNullPRS P d n).1 ∧ (readNullPRS P d n).1 ≤ n ∧
      IngestInv P (readNullPRS P d n).2 := by
  have h1 : (readNullPRS P d n).1 = min (corrCap P - d.corrLen) n := by
    simp only [readNullPRS]
    split <;> rfl
  rw [IngestInv, h1]
  refine ⟨by omega, by omega, ?_⟩
  by_cases hfull : d.corrLen + min (corrCap P - d.corrLen) n = corrCap P
  · have h2 : (readNullPRS P d n).2 =
        { d with
          corrLen := d.corrLen + min (corrCap P - d.corrLen) n,
          state := FSMState.runningCoarseFreqSync } := by
      simp only [readNullPRS]
      rw [if_pos hfull]
    rw [h2]
    refine ⟨fun h => ?_, fun h => ?_, hdip⟩
    · cases h
    · cases h
  · have h2 : (readNullPRS P d n).2 =
        { d with corrLen := d.corrLen + min (corrCap P - d.corrLen) n } := by
      simp only [readNullPRS]
      rw [if_neg hfull]
    rw [h2]
    refine ⟨fun _ => ?_, fun h => ?_, hdip⟩
    · show d.corrLen + min (corrCap P - d.corrLen) n < corrCap P
      omega
    · simp [hst] at h

theorem runCoarseFreqSync_spec (P : IngestParams) (d : Demod)
    (hdip : d.dipLen ≤ P.nb_null_period) :
    (runCoarseFreqSyncM P d).1 = 0 ∧
      (runCoarseFreqSyncM P d).2.state = FSMState.runningFineTimeSync ∧
      IngestInv P (runCoarseFreqSyncM P d).2 := by
  rw [runCoarseFreqSyncM, IngestInv]
  by_cases hcfg : P.is_coarse_freq_correction = false
  · rw [if_pos hcfg]
    refine ⟨rfl, rfl, fun h => ?_, fun h => ?_, hdip⟩
    · simp at h
    · simp at h
  · rw [if_neg hcfg]
    refine ⟨rfl, rfl, fun h => ?_, fun h => ?_, hdip⟩
    · simp at h
    · simp at h

theorem runFineTimeSync_spec (P : IngestParams)
    (hframe : P.nb_symbol_period + P.nb_cyclic < P.frameCap) (hfft : 1 ≤ P.nb_fft)
    (d : Demod) (hdip : d.dipLen ≤ P.nb_null_period) :
    (runFineTimeSyncM P d).1 = 0 ∧
      ((runFineTimeSyncM P d).2.state = FSMState.findingNullPowerDip ∨
        (runFineTimeSyncM P d).2.state = FSMState.readingSymbols) ∧
      IngestInv P (runFineTimeSyncM P d).2 := by
  rw [IngestInv]
  by_cases hflip : d.flips d.nflips = true
  · have h2 : runFineTimeSyncM P d = (0,
        { d with
          state := FSMState.findingNullPowerDip,
          corrLen := 0,
          framesDesync := d.framesDesync + 1,
          is_found_coarse := false,
          freqCoarse := 0,
          freqFine := 0,
          fineTime := 0,
          nflips := d.nflips + 1,
          npeaks := d.npeaks + 1 }) := by
      rw [runFineTimeSyncM, if_pos hflip]
    rw [h2]
    refine ⟨rfl, Or.inl rfl, fun h => ?_, fun h => ?_, hdip⟩
    · cases h
    · cases h
  · have h2 : runFineTimeSyncM P d = (0,
        { d with
          inactiveLen := min P.frameCap ((P.nb_symbol_period : ℤ) -
            ((d.peaks d.npeaks) % (P.nb_fft : ℤ) - (P.nb_cyclic : ℤ))).toNat,
          corrLen := 0,
          fineTime := (d.peaks d.npeaks) % (P.nb_fft : ℤ) - (P.nb_cyclic : ℤ),
          nflips := d.nflips + 1,
          npeaks := d.npeaks + 1,
          state := FSMState.readingSymbols }) := by
      rw [runFineTimeSyncM, if_neg hflip]
    rw [h2]
    refine ⟨rfl, Or.inr rfl, fun h => ?_, fun _ => ?_, hdip⟩
    · cases h
    · show min P.frameCap ((P.nb_symbol_period : ℤ) -
        ((d.peaks d.npeaks) % (P.nb_fft : ℤ) - (P.nb_cyclic : ℤ))).toNat < P.frameCap
      have hmod : 0 ≤ (d.peaks d.npeaks) % (P.nb_fft : ℤ) := by
        apply Int.emod_nonneg
        omega
      omega

theorem readSymbols_spec (P : IngestParams) (hsp : 1 ≤ P.nb_symbol_period)
    (d : Demod) (hst : d.state = FSMState.readingSymbols)
    (hinact : d.inactiveLen < P.frameCap) (hdip : d.dipLen ≤ P.nb_null_period)
    (n : ℕ) (hn : 1 ≤ n) :
    1 ≤ (readSymbols P d n).1 ∧ (readSymbols P d n).1 ≤ n ∧
      IngestInv P (readSymbols P d n).2 := by
  have h1 : (readSymbols P d n).1 = min (P.frameCap - d.inactiveLen) n := by
    simp only [readSymbols]
    split <;> rfl
  rw [IngestInv, h1]
  refine ⟨by omega, by omega, ?_⟩
  by_cases hfull : d.inactiveLen + min (P.frameCap - d.inactiveLen) n = P.frameCap
  · have h2 : (readSymbols P d n).2 =
        { d with
          inactiveLen := 0,
          corrLen := P.nb_null_period,
          state := FSMState.readingNullPRS } := by
      simp only [readSymbols]
      rw [if_pos hfull]
    rw [h2]
    refine ⟨fun _ => ?_, fun h => ?_, hdip⟩
    · show P.nb_null_period < corrCap P
      rw [corrCap]
      omega
    · cases h
  · have h2 : (readSymbols P d n).2 =
        { d with inactiveLen := d.inactiveLen + min (P.frameCap - d.inactiveLen) n } := by
      simp only [readSymbols]
      rw [if_neg hfull]
    rw [h2]
    refine ⟨fun h => ?_, fun _ => ?_, hdip⟩
    · simp [hst] at h
    · show d.inactiveLen + min (P.frameCap - d.inactiveLen) n < P.frameCap
      omega

/-- One loop iteration: the handler consumes at most the remaining
samples, preserves the invariant, and either consumes at least one sample
or strictly lowers the state rank. -/
theorem ingestStep_spec (P : IngestParams) (hK : 1 ≤ P.K) (hsp : 1 ≤ P.nb_symbol_period)
    (hframe : P.nb_symbol_period + P.nb_cyclic < P.frameCap) (hfft : 1 ≤ P.nb_fft)
    (d : Demod) (hInv : IngestInv P d) (n : ℕ) (hn : 1 ≤ n) :
    (ingestStep P d n).1 ≤ n ∧ IngestInv P (ingestStep P d n).2 ∧
      (1 ≤ (ingestStep P d n).1 ∨
        ((ingestStep P d n).1 = 0 ∧
          stateRank (ingestStep P d n).2.state < stateRank d.state)) := by
  obtain ⟨hInv1, hInv2, hInv3⟩ := hInv
  have hstep : ingestStep P d n =
      match d.state with
      | FSMState.findingNullPowerDip => findNullPowerDip P d n
      | FSMState.readingNullPRS => readNullPRS P d n
      | FSMState.runningCoarseFreqSync => runCoarseFreqSyncM P d
      | FSMState.runningFineTimeSync => runFineTimeSyncM P d
      | FSMState.readingSymbols => readSymbols P d n := rfl
  cases hst : d.state with
  | findingNullPowerDip =>
    simp only [hstep, hst]
    have h := findNullPowerDip_spec P hK hsp d hst n hn
    exact ⟨h.2.1, h.2.2, Or.inl h.1⟩
  | readingNullPRS =>
    simp only [hstep, hst]
    have h := readNullPRS_spec P d hst (hInv1 hst) hInv3 n hn
    exact ⟨h.2.1, h.2.2, Or.inl h.1⟩
  | runningCoarseFreqSync =>
    simp only [hstep, hst]
    have h := runCoarseFreqSync_spec P d hInv3
    refine ⟨by omega, h.2.2, Or.inr ⟨h.1, ?_⟩⟩
    rw [h.2.1]
    decide
  | runningFineTimeSync =>
    simp only [hstep, hst]
    have h := runFineTimeSync_spec P hframe hfft d hInv3
    refine ⟨by omega, h.2.2, Or.inr ⟨h.1, ?_⟩⟩
    rcases h.2.1 with h1 | h1 <;> rw [h1] <;> decide
  | readingSymbols =>
    simp only [hstep, hst]
    have h := readSymbols_spec P hsp d hst (hInv2 hst) hInv3 n hn
    exact ⟨h.2.1, h.2.2, Or.inl h.1⟩

/-- The loop consumes exactly its input within `3n + rank + 1` iterations. -/
theorem processLoop_spec (P : IngestParams) (hK : 1 ≤ P.K) (hsp : 1 ≤ P.nb_symbol_period)
    (hframe : P.nb_symbol_period + P.nb_cyclic < P.frameCap) (hfft : 1 ≤ P.nb_fft) :
    ∀ fuel n (d : Demod), IngestInv P d → 3 * n + stateRank d.state < fuel →
      ∃ d', processLoop P fuel d n = some (d', n) := by
  intro fuel
  induction fuel with
  | zero =>
    intro n d _ hlt
    omega
  | succ fuel ih =>
    intro n d hInv hlt
    match n with
    | 0 => exact ⟨d, rfl⟩
    | m + 1 =>
      obtain ⟨hle, hInv', hprog⟩ :=
        ingestStep_spec P hK hsp hframe hfft d hInv (m + 1) (by omega)
      have hrank : stateRank (ingestStep P d (m + 1)).2.state ≤ 2 := by
        cases hs : (ingestStep P d (m + 1)).2.state <;> decide
      have hrankd : stateRank d.state ≤ 2 := by
        cases hs : d.state <;> decide
      have hnext : 3 * (m + 1 - (ingestStep P d (m + 1)).1) +
          stateRank (ingestStep P d (m + 1)).2.state < fuel := by
        rcases hprog with hc | ⟨hc0, hdrop⟩
        · omega
        · omega
      obtain ⟨d', hd'⟩ := ih (m + 1 - (ingestStep P d (m + 1)).1)
        (ingestStep P d (m + 1)).2 hInv' hnext
      refine ⟨d', ?_⟩
      rw [processLoop]
      rw [hd']
      simp only [Option.map_some']
      congr 2
      omega

/-- C3: for every finite input batch of `N` samples (with
`cfg.signal_l1.nb_samples ≥ 1` and sane OFDM parameters), the `Process`
loop terminates — within `3N + 3` iterations — and advances its internal
index by exactly `N`: the two zero-consumption states
(`RUNNING_COARSE_FREQ_SYNC`, `RUNNING_FINE_TIME_SYNC`) always transition
onward, every other handler consumes at least one remaining sample, and
no sample is dropped or double-counted. -/
theorem process_consumes_batch (P : IngestParams) (hK : 1 ≤ P.K)
    (hsp : 1 ≤ P.nb_symbol_period) (hframe : P.nb_symbol_period + P.nb_cyclic < P.frameCap)
    (hfft : 1 ≤ P.nb_fft) (d : Demod) (hInv : IngestInv P d) (N : ℕ) :
    ∃ d', processLoop P (3 * N + 3) d N = some (d', N) := by
  apply processLoop_spec P hK hsp hframe hfft
  · exact hInv
  · have : stateRank d.state ≤ 2 := by
      cases hs : d.state <;> simp [stateRank]
    omega

/-- Witness for C3: the sample parameters and initial state with a batch
of 5 samples. -/
theorem process_consumes_batch_witness :
    (1 ≤ sampleParams.K ∧ 1 ≤ sampleParams.nb_symbol_period ∧
      sampleParams.nb_symbol_period + sampleParams.nb_cyclic < sampleParams.frameCap ∧
      1 ≤ sampleParams.nb_fft ∧ IngestInv sampleParams sampleDemod) ∧
    ∃ d', processLoop sampleParams (3 * 5 + 3) sampleDemod 5 = some (d', 5) := by
  have hInv : IngestInv sampleParams sampleDemod := by
    refine ⟨?_, ?_, ?_⟩
    · intro h
      exact absurd h (by decide)
    · intro h
      exact absurd h (by decide)
    · decide
  exact ⟨⟨by decide, by decide, by decide, by decide, hInv⟩,
    process_consumes_batch sampleParams (by decide) (by decide) (by decide) (by decide)
      sampleDemod hInv 5⟩

/-- C7: whenever fine time synchronisation finds the impulse peak
insufficient (`impulse_max_value - impulse_avg < impulse_peak_threshold_db`,
abstracted as the oracle comparison being true), `Reset` runs: afterwards
the FSM state is `FINDING_NULL_POWER_DIP`, the correlation buffer length
is `0`, `total_frames_desync` has grown by exactly `1`,
`is_found_coarse_freq_offset` is false, and `freq_coarse_offset`,
`freq_fine_offset` and `fine_time_offset` are all zero; the call consumes
zero input samples (and returns normally — the handler has no error
path, matching the source, which surfaces no external error). -/
theorem fine_time_sync_reset (P : IngestParams) (d : Demod)
    (hpeak : d.flips d.nflips = true) :
    (runFineTimeSyncM P d).1 = 0 ∧
    (runFineTimeSyncM P d).2.state = FSMState.findingNullPowerDip ∧
    (runFineTimeSyncM P d).2.corrLen = 0 ∧
    (runFineTimeSyncM P d).2.framesDesync = d.framesDesync + 1 ∧
    (runFineTimeSyncM P d).2.is_found_coarse = false ∧
    (runFineTimeSyncM P d).2.freqCoarse = 0 ∧
    (runFineTimeSyncM P d).2.freqFine = 0 ∧
    (runFineTimeSyncM P d).2.fineTime = 0 := by
  rw [runFineTimeSyncM, if_pos hpeak]
  exact ⟨rfl, rfl, rfl, rfl, rfl, rfl, rfl, rfl⟩

/-- Witness for C7 on the sample state, whose oracle reports an
insufficient peak. -/
theorem fine_time_sync_reset_witness :
    sampleDemod.flips sampleDemod.nflips = true ∧
    ((runFineTimeSyncM sampleParams sampleDemod).1 = 0 ∧
    (runFineTimeSyncM sampleParams sampleDemod).2.state = FSMState.findingNullPowerDip ∧
    (runFineTimeSyncM sampleParams sampleDemod).2.corrLen = 0 ∧
    (runFineTimeSyncM sampleParams sampleDemod).2.framesDesync = sampleDemod.framesDesync + 1 ∧
    (runFineTimeSyncM sampleParams sampleDemod).2.is_found_coarse = false ∧
    (runFineTimeSyncM sampleParams sampleDemod).2.freqCoarse = 0 ∧
    (runFineTimeSyncM sampleParams sampleDemod).2.freqFine = 0 ∧
    (runFineTimeSyncM sampleParams sampleDemod).2.fineTime = 0) :=
  ⟨rfl, fine_time_sync_reset sampleParams sampleDemod rfl⟩

end DABOFDM
